import Mathlib

/-!
Verification of the `larlis` erasure-coded storage core (`src/entropy.rs`) and
its transport dispatch (`src/net/session.rs`) against the repository
specification.

The Rust state machines are shallowly embedded: every event handler of
`entropy::Peer` becomes a pure Lean function from the peer state and the event
to a `StepResult` holding the outcome (`ok`, an `anyhow` error return, or a
panic from `assert!`/`unwrap`/`unreachable!`), the successor state, and the
list of emitted side effects (network sends, codec-worker submissions, bulk
offers/accepts, filesystem commands, upcalls, cancellation triggers).
`HashMap` fields are embedded as association lists with unique keys;
`HashSet<PeerId>` as a duplicate-free list with membership-guarded insertion.
Cryptographic hashing and signature verification are opaque to the protocol
logic and are passed in as oracles (`hash` function, `sigOk` flag), and the
random index drawn in the `Invite` handler is an explicit event field.
-/

namespace Larlis

/-- Association-list lookup, modelling `HashMap::get` (keys are unique). -/
def alookup (k : Nat) : List (Nat × α) → Option α
  | [] => none
  | (k', v) :: rest => if k' = k then some v else alookup k rest

/-- Association-list insert-or-replace in place, modelling `HashMap::insert`. -/
def ainsert (k : Nat) (v : α) : List (Nat × α) → List (Nat × α)
  | [] => [(k, v)]
  | (k', v') :: rest => if k' = k then (k, v) :: rest else (k', v') :: ainsert k v rest

/-- Association-list removal, modelling `HashMap::remove` (keys are unique, so
removing every pair with the key agrees with removing the unique one). -/
def aerase (k : Nat) : List (Nat × α) → List (Nat × α)
  | [] => []
  | (k', v) :: rest => if k' = k then aerase k rest else (k', v) :: aerase k rest

theorem alookup_ainsert (k k' : Nat) (v : α) (l : List (Nat × α)) :
    alookup k' (ainsert k v l) = if k' = k then some v else alookup k' l := by
  induction l with
  | nil =>
    by_cases h : k' = k
    · subst h; simp [ainsert, alookup]
    · simp [ainsert, alookup, h, if_neg (Ne.symm h)]
  | cons hd tl ih =>
    obtain ⟨k₁, v₁⟩ := hd
    by_cases h1 : k₁ = k
    · subst h1
      by_cases h2 : k' = k₁
      · subst h2; simp [ainsert, alookup]
      · simp [ainsert, alookup, h2, if_neg (Ne.symm h2)]
    · by_cases h2 : k₁ = k'
      · subst h2
        have h3 : ¬ k₁ = k := h1
        simp [ainsert, alookup, h1, if_neg (Ne.symm h3), h3]
      · by_cases h3 : k' = k
        · subst h3; simp [ainsert, alookup, h1, h2, ih]
        · simp [ainsert, alookup, h1, h2, h3, ih]

theorem alookup_ainsert_self (k : Nat) (v : α) (l : List (Nat × α)) :
    alookup k (ainsert k v l) = some v := by
  simp [alookup_ainsert]

theorem alookup_ainsert_ne (k k' : Nat) (v : α) (l : List (Nat × α)) (h : k' ≠ k) :
    alookup k' (ainsert k v l) = alookup k' l := by
  simp [alookup_ainsert, h]

theorem ainsert_self (k : Nat) (v : α) (l : List (Nat × α)) (h : alookup k l = some v) :
    ainsert k v l = l := by
  induction l with
  | nil => simp [alookup] at h
  | cons hd tl ih =>
    obtain ⟨k₁, v₁⟩ := hd
    by_cases h1 : k₁ = k
    · subst h1
      simp [alookup] at h
      simp [ainsert, h]
    · simp [alookup, h1] at h
      simp [ainsert, h1, ih h]

theorem alookup_aerase (k k' : Nat) (l : List (Nat × α)) :
    alookup k' (aerase k l) = if k' = k then none else alookup k' l := by
  induction l with
  | nil => by_cases h : k' = k <;> simp [aerase, alookup, h]
  | cons hd tl ih =>
    obtain ⟨k₁, v₁⟩ := hd
    by_cases h1 : k₁ = k
    · subst h1
      by_cases h2 : k' = k₁
      · subst h2; simp [aerase, alookup, ih]
      · simp [aerase, alookup, h2, if_neg (Ne.symm h2), ih]
    · by_cases h2 : k₁ = k'
      · subst h2
        have h3 : ¬ k₁ = k := h1
        simp [aerase, alookup, h3, if_neg (Ne.symm h3)]
      · by_cases h3 : k' = k
        · subst h3; simp [aerase, alookup, h1, h2, ih]
        · simp [aerase, alookup, h1, h2, h3, ih]

theorem alookup_aerase_self (k : Nat) (l : List (Nat × α)) :
    alookup k (aerase k l) = none := by
  simp [alookup_aerase]

theorem alookup_mem {k : Nat} {v : α} {l : List (Nat × α)} (h : alookup k l = some v) :
    (k, v) ∈ l := by
  induction l with
  | nil => simp [alookup] at h
  | cons hd tl ih =>
    obtain ⟨k₁, v₁⟩ := hd
    by_cases h1 : k₁ = k
    · subst h1
      simp [alookup] at h
      simp [h]
    · simp [alookup, h1] at h
      simp [ih h]

/-- Fragment payload bytes (`Payload` / `Bytes` in the source); contents are
opaque to the protocol logic. -/
abbrev Payload := List Nat

/-- Model of `entropy::RecoverState`: the decoder slot (`Option<Decoder>`, embedded as
presence), the pending fragment queue, and the received-index set. -/
structure RecoverState where
  decoder : Bool
  pending : List (Nat × Payload)
  received : List Nat
deriving Repr, DecidableEq

/-- A fresh `RecoverState::new`: decoder installed, nothing pending or received. -/
def RecoverState.fresh : RecoverState := ⟨true, [], []⟩

/-- Model of `entropy::UploadState`: preimage, encoder slot (presence of the shared
encoder), reserved index-to-peer map, and the receipt set. -/
structure UploadState where
  preimage : Nat
  encoder : Bool
  pending : List (Nat × Nat)
  available : List Nat
deriving Repr, DecidableEq

/-- Model of `entropy::DownloadState`. -/
structure DownloadState where
  preimage : Nat
  recover : RecoverState
deriving Repr, DecidableEq

/-- Model of `entropy::PersistStatus`. -/
inductive PersistStatus where
  | recovering (recover : RecoverState)
  | storing
  | available
deriving Repr, DecidableEq

/-- Model of `entropy::PersistState`: the assigned index, the status, and the optional
peer to notify with a signed receipt. -/
structure PersistState where
  index : Nat
  status : PersistStatus
  notify : Option Nat
deriving Repr, DecidableEq

/-- The `entropy::Peer` state: identity, protocol parameters, and the four
chunk-keyed tables. -/
structure Peer where
  id : Nat
  key : Nat
  fragment_len : Nat
  chunk_k : Nat
  chunk_n : Nat
  chunk_m : Nat
  uploads : List (Nat × UploadState)
  downloads : List (Nat × DownloadState)
  persists : List (Nat × PersistState)
  pending_pulls : List (Nat × List Nat)
deriving Repr, DecidableEq

/-- Side effects a handler emits: network sends, codec-worker submissions,
bulk-service calls, filesystem commands, upcalls, and cancellation triggers. -/
inductive Output where
  | sendInvite (chunk m : Nat)
  | sendInviteOk (dst chunk index peerId : Nat)
  | sendFragmentAvailable (dst chunk peerId peerKey : Nat)
  | sendPull (chunk m : Nat)
  | submitEncoder (chunk : Nat) (buf : Payload)
  | submitEncode (chunk index : Nat)
  | submitDecode (chunk index : Nat) (fragment : Payload) (encodeIndex : Option Nat)
  | bulkOffer (dst chunk index : Nat) (peerId : Option Nat) (fragment : Payload)
  | bulkAccept (chunk index : Nat)
  | fsStore (chunk index : Nat) (fragment : Payload)
  | fsLoad (chunk index : Nat) (take : Bool)
  | putOk (preimage : Nat)
  | getOk (preimage : Nat) (buf : Payload)
  | cancel (chunk : Nat)
deriving Repr, DecidableEq

/-- How a handler invocation ended: `ok`, an `anyhow` error return (session
terminating), or a Rust panic (`assert!`, `unwrap`, `unreachable!`). The
numeric codes identify the source site:
error 1 = `Put` length mismatch; error 2 = duplicated upload chunk;
error 3 = duplicated download chunk; error 4 = expected peer id in
`SendFragment`; crash 11 = `NewEncoder` encoder-slot assert; crash 12 =
`InviteOk` encoder `unwrap`; crash 13 = `RecvOffer` `assert_eq` on index;
crash 14 = `RecvOffer` notify assert; crash 15 = `on_decode` decoder-slot
assert; crash 16 = `unreachable!` in the `Decode` handler; crash 17 =
`unreachable!` in the `RecoverEncode` handler. -/
inductive Outcome where
  | ok
  | error (code : Nat)
  | crash (code : Nat)
deriving Repr, DecidableEq

/-- Result of one handler invocation: outcome, successor peer state (the state
as mutated up to the point of return), and emitted side effects. -/
structure StepResult where
  out : Outcome
  peer : Peer
  outs : List Output
deriving Repr, DecidableEq

/-- Handler `OnEvent<Put>::on_event` (entropy.rs:313): reject a buffer whose length is
not `fragment_len * k`; install the upload entry; reject a duplicate chunk;
submit encoder construction to the codec worker. -/
def Peer.onPut (p : Peer) (target : Nat → Nat) (preimage : Nat) (buf : Payload) : StepResult :=
  if buf.length ≠ p.fragment_len * p.chunk_k then
    ⟨.error 1, p, []⟩
  else
    let chunk := target preimage
    let replaced := alookup chunk p.uploads
    let p' := { p with uploads := ainsert chunk ⟨preimage, false, [], []⟩ p.uploads }
    if replaced.isSome then ⟨.error 2, p', []⟩
    else ⟨.ok, p', [.submitEncoder chunk buf]⟩

/-- Handler `OnEvent<NewEncoder>::on_event` (entropy.rs:346): fill the encoder slot
(asserting it was empty) and multicast `Invite` with fan-out `m`. -/
def Peer.onNewEncoder (p : Peer) (chunk : Nat) : StepResult :=
  match alookup chunk p.uploads with
  | none => ⟨.ok, p, []⟩
  | some st =>
    if st.encoder then ⟨.crash 11, p, []⟩
    else
      ⟨.ok, { p with uploads := ainsert chunk { st with encoder := true } p.uploads },
        [.sendInvite chunk p.chunk_m]⟩

/-- Handler `OnEvent<Recv<Invite>>::on_event` (entropy.rs:366): drop self-invites;
otherwise `or_insert` a persist entry with a freshly drawn random index and
always reply `InviteOk` carrying that freshly drawn index. -/
def Peer.onRecvInvite (p : Peer) (chunk peerId randIndex : Nat) : StepResult :=
  if peerId = p.id then ⟨.ok, p, []⟩
  else
    let persists' :=
      match alookup chunk p.persists with
      | some _ => p.persists
      | none => ainsert chunk ⟨randIndex, .recovering RecoverState.fresh, none⟩ p.persists
    ⟨.ok, { p with persists := persists' }, [.sendInviteOk peerId chunk randIndex p.id]⟩

/-- Handler `OnEvent<Recv<InviteOk>>::on_event` (entropy.rs:395): for an uploading
chunk, ignore an already-reserved index, else reserve it and submit an encode
job (unwrapping the encoder); for a persisting chunk both branches are no-ops. -/
def Peer.onRecvInviteOk (p : Peer) (chunk index peerId : Nat) : StepResult :=
  match alookup chunk p.uploads with
  | some st =>
    if (alookup index st.pending).isSome then ⟨.ok, p, []⟩
    else
      if st.encoder then
        ⟨.ok,
          { p with uploads := ainsert chunk { st with pending := ainsert index peerId st.pending } p.uploads },
          [.submitEncode chunk index]⟩
      else ⟨.crash 12, p, []⟩
  | none => ⟨.ok, p, []⟩

/-- Handler `OnEvent<Encode>::on_event` (entropy.rs:425): look up the reserved peer for
the index and offer the fragment through the bulk service expecting a receipt. -/
def Peer.onEncode (p : Peer) (chunk index : Nat) (fragment : Payload) : StepResult :=
  match alookup chunk p.uploads with
  | none => ⟨.ok, p, []⟩
  | some st =>
    match alookup index st.pending with
    | none => ⟨.ok, p, []⟩
    | some peerId => ⟨.ok, p, [.bulkOffer peerId chunk index (some p.id) fragment]⟩

/-- Handler `OnEvent<RecvOffer<SendFragment>>::on_event` (entropy.rs:449): a
downloading chunk accepts the transfer; a persisting chunk in `Recovering`
records the initiator in `notify` when offered its own index and accepts the
transfer; outside `Recovering` an offer of its own index with a sender is
acknowledged with an immediate signed `FragmentAvailable`. -/
def Peer.onRecvOffer (p : Peer) (chunk index : Nat) (peerId : Option Nat) : StepResult :=
  match alookup chunk p.downloads with
  | some _ => ⟨.ok, p, [.bulkAccept chunk index]⟩
  | none =>
    match alookup chunk p.persists with
    | none => ⟨.ok, p, []⟩
    | some st =>
      match st.status with
      | .recovering _ =>
        if index = st.index then
          if st.notify.isSome then ⟨.crash 14, p, []⟩
          else
            match peerId with
            | none => ⟨.error 4, p, []⟩
            | some pid =>
              ⟨.ok, { p with persists := ainsert chunk { st with notify := some pid } p.persists },
                [.bulkAccept chunk index]⟩
        else ⟨.ok, p, [.bulkAccept chunk index]⟩
      | _ =>
        match peerId with
        | some pid =>
          if index ≠ st.index then ⟨.crash 13, p, []⟩
          else ⟨.ok, p, [.sendFragmentAvailable pid chunk p.id p.key]⟩
        | none => ⟨.ok, p, []⟩

/-- Method `RecoverState::submit_decode` (entropy.rs:540): move the decoder out and
submit a decode job when it is present, otherwise queue the fragment in
`pending`. -/
def RecoverState.submit_decode (rs : RecoverState) (chunk index : Nat) (fragment : Payload)
    (encodeIndex : Option Nat) : RecoverState × List Output :=
  if rs.decoder then
    ({ rs with decoder := false }, [.submitDecode chunk index fragment encodeIndex])
  else
    ({ rs with pending := ainsert index fragment rs.pending }, [])

/-- Method `RecoverState::on_decode` (entropy.rs:714): reinstall the returned decoder
(asserting the slot was empty; `none` is that panic), then resubmit one pending
fragment if any (an arbitrary key of the pending map, here the head). -/
def RecoverState.on_decode (rs : RecoverState) (chunk : Nat) (encodeIndex : Option Nat) :
    Option (RecoverState × List Output) :=
  if rs.decoder then none
  else
    let rs1 : RecoverState := { rs with decoder := true }
    match rs1.pending.head? with
    | none => some (rs1, [])
    | some (index, fragment) =>
      some (RecoverState.submit_decode { rs1 with pending := aerase index rs1.pending }
        chunk index fragment encodeIndex)

/-- Handler `OnEvent<DownloadOk>::on_event` (entropy.rs:502): a downloading chunk feeds
the fragment to the decoder; a persisting chunk in `Recovering` short-circuits
its own index to `Storing` + `fs::Store`, and otherwise feeds newly received
indices to the decoder with a re-encode request. -/
def Peer.onDownloadOk (p : Peer) (chunk index : Nat) (fragment : Payload) : StepResult :=
  match alookup chunk p.downloads with
  | some st =>
    let r := st.recover.submit_decode chunk index fragment none
    ⟨.ok, { p with downloads := ainsert chunk { st with recover := r.1 } p.downloads }, r.2⟩
  | none =>
    match alookup chunk p.persists with
    | none => ⟨.ok, p, []⟩
    | some st =>
      match st.status with
      | .recovering recover =>
        if index = st.index then
          ⟨.ok, { p with persists := ainsert chunk { st with status := .storing } p.persists },
            [.fsStore chunk st.index fragment]⟩
        else if index ∈ recover.received then ⟨.ok, p, []⟩
        else
          let r := { recover with received := index :: recover.received
                     : RecoverState }.submit_decode chunk index fragment (some st.index)
          ⟨.ok, { p with persists := ainsert chunk { st with status := .recovering r.1 } p.persists },
            r.2⟩
      | _ => ⟨.ok, p, []⟩

/-- Handler `OnEvent<fs::StoreOk>::on_event` (entropy.rs:569): mark the persist entry
`Available` and send the signed receipt to the peer recorded in `notify`. -/
def Peer.onStoreOk (p : Peer) (chunk : Nat) : StepResult :=
  match alookup chunk p.persists with
  | none => ⟨.ok, p, []⟩
  | some st =>
    let outs := match st.notify with
      | some pid => [Output.sendFragmentAvailable pid chunk p.id p.key]
      | none => []
    ⟨.ok, { p with persists := ainsert chunk { st with status := .available, notify := none } p.persists },
      outs⟩

/-- Handler `OnEvent<Recv<Verifiable<FragmentAvailable>>>::on_event` (entropy.rs:594),
embedded exactly as written in the source: the message is dropped only when
`peer_id = hash peer_key` AND the signature fails to verify; otherwise the
sender is inserted into the receipt set, and on the set reaching `n` the entry
is removed, its cancellation token triggered, and `PutOk` emitted. -/
def Peer.onRecvFragmentAvailable (p : Peer) (hash : Nat → Nat) (chunk peerId peerKey : Nat)
    (sigOk : Bool) : StepResult :=
  match alookup chunk p.uploads with
  | none => ⟨.ok, p, []⟩
  | some st =>
    if peerId = hash peerKey ∧ sigOk = false then ⟨.ok, p, []⟩
    else
      let st' := { st with available := st.available.insert peerId }
      if st'.available.length = p.chunk_n then
        ⟨.ok, { p with uploads := aerase chunk p.uploads }, [.cancel chunk, .putOk st.preimage]⟩
      else
        ⟨.ok, { p with uploads := ainsert chunk st' p.uploads }, []⟩

/-- Handler `OnEvent<Get>::on_event` (entropy.rs:624): install the download entry,
reject a duplicate chunk, multicast `Pull` with fan-out `m`. -/
def Peer.onGet (p : Peer) (target : Nat → Nat) (preimage : Nat) : StepResult :=
  let chunk := target preimage
  let replaced := alookup chunk p.downloads
  let p' := { p with downloads := ainsert chunk ⟨preimage, RecoverState.fresh⟩ p.downloads }
  if replaced.isSome then ⟨.error 3, p', []⟩
  else ⟨.ok, p', [.sendPull chunk p.chunk_m]⟩

/-- Handler `OnEvent<Recv<Pull>>::on_event` (entropy.rs:648): only an `Available`
persist entry serves a pull; the puller is queued and a taking load is issued. -/
def Peer.onRecvPull (p : Peer) (chunk peerId : Nat) : StepResult :=
  match alookup chunk p.persists with
  | none => ⟨.ok, p, []⟩
  | some st =>
    match st.status with
    | .available =>
      let cur := (alookup chunk p.pending_pulls).getD []
      ⟨.ok, { p with pending_pulls := ainsert chunk (cur ++ [peerId]) p.pending_pulls },
        [.fsLoad chunk st.index true]⟩
    | _ => ⟨.ok, p, []⟩

/-- Handler `OnEvent<fs::LoadOk>::on_event` (entropy.rs:667): offer the loaded fragment
to every pending puller (no receipt, no cancel) and clear the list. -/
def Peer.onLoadOk (p : Peer) (chunk index : Nat) (fragment : Payload) : StepResult :=
  match alookup chunk p.pending_pulls with
  | none => ⟨.ok, p, []⟩
  | some pending =>
    ⟨.ok, { p with pending_pulls := aerase chunk p.pending_pulls },
      pending.map (fun pid => Output.bulkOffer pid chunk index none fragment)⟩

/-- Handler `OnEvent<Decode>::on_event` (entropy.rs:692): reinstall the decoder for a
downloading or recovering chunk; a persisting chunk whose status is not
`Recovering` hits `unreachable!` (crash 16). -/
def Peer.onDecode (p : Peer) (chunk : Nat) : StepResult :=
  match alookup chunk p.downloads with
  | some st =>
    match st.recover.on_decode chunk none with
    | none => ⟨.crash 15, p, []⟩
    | some r =>
      ⟨.ok, { p with downloads := ainsert chunk { st with recover := r.1 } p.downloads }, r.2⟩
  | none =>
    match alookup chunk p.persists with
    | none => ⟨.ok, p, []⟩
    | some st =>
      match st.status with
      | .recovering recover =>
        match recover.on_decode chunk (some st.index) with
        | none => ⟨.crash 15, p, []⟩
        | some r =>
          ⟨.ok, { p with persists := ainsert chunk { st with status := .recovering r.1 } p.persists },
            r.2⟩
      | _ => ⟨.crash 16, p, []⟩

/-- Handler `OnEvent<Recover>::on_event` (entropy.rs:733): conclude the download. -/
def Peer.onRecover (p : Peer) (chunk : Nat) (buf : Payload) : StepResult :=
  match alookup chunk p.downloads with
  | none => ⟨.ok, p, []⟩
  | some st =>
    ⟨.ok, { p with downloads := aerase chunk p.downloads }, [.cancel chunk, .getOk st.preimage buf]⟩

/-- Handler `OnEvent<RecoverEncode>::on_event` (entropy.rs:749): move the persist entry
to `Storing` (panicking if it was not `Recovering`), trigger its cancel, and
store the re-encoded own fragment. -/
def Peer.onRecoverEncode (p : Peer) (chunk : Nat) (fragment : Payload) : StepResult :=
  match alookup chunk p.persists with
  | none => ⟨.ok, p, []⟩
  | some st =>
    match st.status with
    | .recovering _ =>
      ⟨.ok, { p with persists := ainsert chunk { st with status := .storing } p.persists },
        [.cancel chunk, .fsStore chunk st.index fragment]⟩
    | _ => ⟨.crash 17, p, []⟩

/-- The events an entropy peer session can dequeue. Oracles for randomness
(`randIndex`) and signature verification (`sigOk`) are carried on the event. -/
inductive Event where
  | put (preimage : Nat) (buf : Payload)
  | newEncoder (chunk : Nat)
  | recvInvite (chunk peerId randIndex : Nat)
  | recvInviteOk (chunk index peerId : Nat)
  | encode (chunk index : Nat) (fragment : Payload)
  | recvOffer (chunk index : Nat) (peerId : Option Nat)
  | downloadOk (chunk index : Nat) (fragment : Payload)
  | storeOk (chunk : Nat)
  | recvFragmentAvailable (chunk peerId peerKey : Nat) (sigOk : Bool)
  | get (preimage : Nat)
  | recvPull (chunk peerId : Nat)
  | loadOk (chunk index : Nat) (fragment : Payload)
  | decode (chunk : Nat)
  | recover (chunk : Nat) (buf : Payload)
  | recoverEncode (chunk : Nat) (fragment : Payload)
deriving Repr, DecidableEq

/-- Dispatch one event to its handler. -/
def Peer.step (p : Peer) (hash target : Nat → Nat) : Event → StepResult
  | .put preimage buf => p.onPut target preimage buf
  | .newEncoder chunk => p.onNewEncoder chunk
  | .recvInvite chunk peerId randIndex => p.onRecvInvite chunk peerId randIndex
  | .recvInviteOk chunk index peerId => p.onRecvInviteOk chunk index peerId
  | .encode chunk index fragment => p.onEncode chunk index fragment
  | .recvOffer chunk index peerId => p.onRecvOffer chunk index peerId
  | .downloadOk chunk index fragment => p.onDownloadOk chunk index fragment
  | .storeOk chunk => p.onStoreOk chunk
  | .recvFragmentAvailable chunk peerId peerKey sigOk =>
    p.onRecvFragmentAvailable hash chunk peerId peerKey sigOk
  | .get preimage => p.onGet target preimage
  | .recvPull chunk peerId => p.onRecvPull chunk peerId
  | .loadOk chunk index fragment => p.onLoadOk chunk index fragment
  | .decode chunk => p.onDecode chunk
  | .recover chunk buf => p.onRecover chunk buf
  | .recoverEncode chunk fragment => p.onRecoverEncode chunk fragment

/-- Run a sequence of events through the session loop, which stops at the first
non-`ok` outcome (the session terminates on error, a panic aborts). Emitted
side effects are accumulated in order. -/
def Peer.run (p : Peer) (hash target : Nat → Nat) : List Event → StepResult
  | [] => ⟨.ok, p, []⟩
  | e :: es =>
    let r := p.step hash target e
    match r.out with
    | .ok =>
      let r' := r.peer.run hash target es
      ⟨r'.out, r'.peer, r.outs ++ r'.outs⟩
    | _ => r

/-- A peer with empty tables, as built by `Peer::new` (parameters
`fragment_len = 4`, `k = 2`, `n = 3`, `m = 5`). -/
def peer0 : Peer :=
  { id := 10, key := 100, fragment_len := 4, chunk_k := 2, chunk_n := 3, chunk_m := 5,
    uploads := [], downloads := [], persists := [], pending_pulls := [] }

/-- A PUT initiator mid-upload: `uploads` holds chunk 0 with an empty receipt
set (the state right after `NewEncoder` minus the encoder flag being relevant). -/
def peerC1 : Peer :=
  { peer0 with uploads := [(0, { preimage := 0, encoder := true, pending := [], available := [] })] }

/-- Claim C1 (code bug witness): a signed `FragmentAvailable` whose `peer_id`
differs from the hash of `peer_key` (1 ≠ hash 2 = 2) and whose signature fails
verification (`sigOk = false`) is nevertheless accepted by the handler — the
sender is inserted into `uploads[chunk].available` — because the source guards
the drop branch with `peer_id == peer_key.sha256() && verify(..).is_err()`
instead of the negation of the two checks. -/
theorem fragment_available_bad_id_accepted :
    (1 : Nat) ≠ id 2 ∧
    Peer.onRecvFragmentAvailable peerC1 id 0 1 2 false =
      ⟨.ok, { peerC1 with
        uploads := [(0, { preimage := 0, encoder := true, pending := [], available := [1] })] },
        []⟩ := by
  decide

/-- Claim C2 (code bug witness): two `Invite`s for chunk 0 with random draws 5
then 7. The `or_insert` keeps `persists[0].index = 5`, but the second reply is
`InviteOk{index 7}`, which does not carry the stored index. -/
theorem invite_ok_fresh_index_divergence :
    (peer0.run id id [.recvInvite 0 77 5, .recvInvite 0 77 7]).out = .ok ∧
    (alookup 0 (peer0.run id id [.recvInvite 0 77 5, .recvInvite 0 77 7]).peer.persists).map
      PersistState.index = some 5 ∧
    (peer0.run id id [.recvInvite 0 77 5, .recvInvite 0 77 7]).outs =
      [.sendInviteOk 77 0 5 10, .sendInviteOk 77 0 7 10] := by
  decide

/-- Claim C5: a `Put` whose buffer length is not `fragment_len * k` returns a
local error immediately: the peer state (in particular `uploads`) is unchanged
and no side effect — no network send, no codec submission — is emitted. -/
theorem put_length_mismatch_rejected (p : Peer) (target : Nat → Nat) (preimage : Nat)
    (buf : Payload) (h : buf.length ≠ p.fragment_len * p.chunk_k) :
    p.onPut target preimage buf = ⟨.error 1, p, []⟩ := by
  unfold Peer.onPut
  rw [if_pos h]

/-- Claim C5 witness: a concrete rejected `Put` (buffer of 5 bytes against
`4 * 2 = 8`). -/
theorem put_length_mismatch_rejected_witness :
    ([1, 2, 3, 4, 5] : Payload).length ≠ peer0.fragment_len * peer0.chunk_k ∧
    peer0.onPut id 0 [1, 2, 3, 4, 5] = ⟨.error 1, peer0, []⟩ :=
  ⟨by decide, put_length_mismatch_rejected peer0 id 0 [1, 2, 3, 4, 5] (by decide)⟩

/-- Claim C6: a second `Put` for a chunk already in `uploads` returns a local
error, and a second `Get` for a chunk already in `downloads` returns a local
error. -/
theorem duplicate_put_get_error (p : Peer) (target : Nat → Nat) (preimage : Nat) (buf : Payload) :
    ((alookup (target preimage) p.uploads).isSome = true →
      ∃ c, (p.onPut target preimage buf).out = .error c) ∧
    ((alookup (target preimage) p.downloads).isSome = true →
      ∃ c, (p.onGet target preimage).out = .error c) := by
  constructor
  · intro hup
    by_cases h : buf.length ≠ p.fragment_len * p.chunk_k
    · exact ⟨1, by simp [Peer.onPut, h]⟩
    · exact ⟨2, by simp [Peer.onPut, h, hup]⟩
  · intro hdn
    exact ⟨3, by simp [Peer.onGet, hdn]⟩

/-- Claim C6 witness: on a peer that is both uploading and downloading chunk 0,
a repeated `Put` and a repeated `Get` both return errors. -/
theorem duplicate_put_get_error_witness :
    (alookup 0 { peerC1 with
        downloads := [(0, ⟨0, RecoverState.fresh⟩)] }.uploads).isSome = true ∧
    (∃ c, ({ peerC1 with downloads := [(0, ⟨0, RecoverState.fresh⟩)] }.onPut id 0 []).out =
      .error c) :=
  ⟨by decide,
    (duplicate_put_get_error { peerC1 with downloads := [(0, ⟨0, RecoverState.fresh⟩)] }
      id 0 []).1 (by decide)⟩

/-- The event trace refuting claim C10: a persist worker accepts an `Invite`
for chunk 0 (drawing index 5), accepts bulk offers for indices 3 and 5, feeds
fragment 3 to the decoder (moving the decoder into the worker), then receives
its own fragment 5 which moves the status to `Storing`, and finally the decode
job returns. -/
def decodeWhileStoringTrace : List Event :=
  [.recvInvite 0 77 5, .recvOffer 0 3 (some 77), .recvOffer 0 5 (some 77),
   .downloadOk 0 3 [9, 9], .downloadOk 0 5 [8, 8], .decode 0]

/-- Claim C10 (code bug witness): running `decodeWhileStoringTrace` from an
empty peer hits the `unreachable!` branch of the `Decode` handler (crash 16):
the decode job was submitted (the `submitDecode` output is in the trace) and at
the moment its `Decode` event is handled the persist entry for chunk 0 is in
status `Storing`, not `Recovering`. -/
theorem decode_unreachable_reached :
    (peer0.run id id decodeWhileStoringTrace).out = .crash 16 ∧
    Output.submitDecode 0 3 [9, 9] (some 5) ∈ (peer0.run id id decodeWhileStoringTrace).outs ∧
    (alookup 0 (peer0.run id id decodeWhileStoringTrace).peer.persists).map PersistState.status =
      some PersistStatus.storing := by
  decide

/-- A sequence of valid signed `FragmentAvailable` receipts for chunk `c`: the
message from key `k` carries `peer_id = hash k` (so the identity check passes)
and verifies (`sigOk = true`). -/
def faEvents (c : Nat) (keys : List Nat) (hash : Nat → Nat) : List Event :=
  keys.map (fun k => .recvFragmentAvailable c (hash k) k true)

/-- The receipt set after absorbing the given senders, mirroring the
`HashSet::insert` evolution of `uploads[c].available`. -/
def availAfter (hash : Nat → Nat) (s : List Nat) (keys : List Nat) : List Nat :=
  keys.foldl (fun acc k => acc.insert (hash k)) s

theorem availAfter_cons (hash : Nat → Nat) (s : List Nat) (k : Nat) (ks : List Nat) :
    availAfter hash s (k :: ks) = availAfter hash (s.insert (hash k)) ks := rfl

theorem faEvents_cons (c : Nat) (k : Nat) (ks : List Nat) (hash : Nat → Nat) :
    faEvents c (k :: ks) hash =
      Event.recvFragmentAvailable c (hash k) k true :: faEvents c ks hash := rfl

/-- Unfolding equation for `Peer.run` when the first handler returns `ok`. -/
theorem Peer.run_cons_of_step_ok (p q : Peer) (hash target : Nat → Nat) (e : Event)
    (es : List Event) (outs : List Output) (h : p.step hash target e = ⟨.ok, q, outs⟩) :
    p.run hash target (e :: es) =
      ⟨(q.run hash target es).out, (q.run hash target es).peer,
        outs ++ (q.run hash target es).outs⟩ := by
  conv_lhs => rw [Peer.run]
  rw [h]

theorem length_le_availAfter (hash : Nat → Nat) (s : List Nat) (keys : List Nat) :
    s.length ≤ (availAfter hash s keys).length := by
  induction keys generalizing s with
  | nil => exact Nat.le_refl _
  | cons k ks ih =>
    refine Nat.le_trans ?_ (ih (s.insert (hash k)))
    by_cases h : hash k ∈ s
    · simp [List.insert_of_mem h]
    · simp [List.insert_of_not_mem h]

/-- Once the upload entry for `c` is gone, any further valid receipts for `c`
are no-ops: the state is untouched and nothing is emitted. -/
theorem run_fa_inert (hash target : Nat → Nat) (c : Nat) (keys : List Nat) (p : Peer)
    (h : alookup c p.uploads = none) :
    p.run hash target (faEvents c keys hash) = ⟨.ok, p, []⟩ := by
  induction keys with
  | nil => rfl
  | cons k ks ih =>
    have hstep : p.step hash target (.recvFragmentAvailable c (hash k) k true) = ⟨.ok, p, []⟩ := by
      simp [Peer.step, Peer.onRecvFragmentAvailable, h]
    rw [faEvents_cons, Peer.run_cons_of_step_ok p p hash target _ _ [] hstep, ih]
    rfl

/-- One accepted receipt on a live upload entry, as computed by the handler. -/
theorem fa_step_accept (hash target : Nat → Nat) (p : Peer) (st : UploadState) (c k : Nat)
    (hst : alookup c p.uploads = some st) :
    p.step hash target (.recvFragmentAvailable c (hash k) k true) =
      (if (st.available.insert (hash k)).length = p.chunk_n then
        ⟨.ok, { p with uploads := aerase c p.uploads }, [.cancel c, .putOk st.preimage]⟩
      else
        ⟨.ok,
          { p with uploads := (ainsert c ({ st with available := st.available.insert (hash k) })
              p.uploads) },
          []⟩) := by
  simp [Peer.step, Peer.onRecvFragmentAvailable, hst]

/-- A receipt from a sender already in `available` is fully absorbed: the peer
state is unchanged and nothing is emitted. -/
theorem fa_dup_step (hash target : Nat → Nat) (p : Peer) (st : UploadState) (c k : Nat)
    (hst : alookup c p.uploads = some st) (hlt : st.available.length < p.chunk_n)
    (hmem : hash k ∈ st.available) :
    p.step hash target (.recvFragmentAvailable c (hash k) k true) = ⟨.ok, p, []⟩ := by
  rw [fa_step_accept hash target p st c k hst]
  rw [List.insert_of_mem hmem, if_neg (Nat.ne_of_lt hlt)]
  have hst' : ({ st with available := st.available } : UploadState) = st := rfl
  rw [hst', ainsert_self c st p.uploads hst]

/-- Core run of a valid-receipt sequence on a live upload entry: the session
never errors, the cumulative emissions are exactly `[cancel, PutOk]` when the
receipt set reaches `n` and empty otherwise, and the entry is removed exactly
when the receipt set reaches `n`. -/
theorem fa_run_spec (hash target : Nat → Nat) (c : Nat) (keys : List Nat) (p : Peer)
    (st : UploadState) (hst : alookup c p.uploads = some st)
    (hlt : st.available.length < p.chunk_n) :
    (p.run hash target (faEvents c keys hash)).out = .ok ∧
    (p.run hash target (faEvents c keys hash)).outs =
      (if p.chunk_n ≤ (availAfter hash st.available keys).length
        then [.cancel c, .putOk st.preimage] else []) ∧
    (alookup c (p.run hash target (faEvents c keys hash)).peer.uploads = none ↔
      p.chunk_n ≤ (availAfter hash st.available keys).length) := by
  induction keys generalizing p st with
  | nil =>
    have hnle : ¬ p.chunk_n ≤ st.available.length := Nat.not_le.mpr hlt
    simp [faEvents, Peer.run, availAfter, hnle, hst]
  | cons k ks ih =>
    by_cases hmem : hash k ∈ st.available
    · have hstep := fa_dup_step hash target p st c k hst hlt hmem
      have hinsert : st.available.insert (hash k) = st.available := List.insert_of_mem hmem
      have hrec := ih p st hst hlt
      rw [faEvents_cons, Peer.run_cons_of_step_ok p p hash target _ _ [] hstep]
      simpa [availAfter_cons, hinsert] using hrec
    · have hinsert : st.available.insert (hash k) = hash k :: st.available :=
        List.insert_of_not_mem hmem
      have hstep := fa_step_accept hash target p st c k hst
      rw [hinsert] at hstep
      by_cases heq : st.available.length + 1 = p.chunk_n
      · rw [if_pos (by simpa using heq)] at hstep
        have hrest := run_fa_inert hash target c ks
          ({ p with uploads := aerase c p.uploads }) (alookup_aerase_self c p.uploads)
        have hreach : p.chunk_n ≤ (availAfter hash st.available (k :: ks)).length := by
          rw [availAfter_cons, hinsert]
          calc p.chunk_n = (hash k :: st.available).length := by simpa using heq.symm
            _ ≤ _ := length_le_availAfter hash _ ks
        rw [faEvents_cons,
          Peer.run_cons_of_step_ok p ({ p with uploads := aerase c p.uploads }) hash target _ _ _
            hstep,
          hrest]
        refine ⟨rfl, ?_, ?_⟩
        · rw [if_pos hreach]
          simp
        · simp [alookup_aerase_self, hreach]
      · rw [if_neg (by simpa using heq)] at hstep
        have hlt2 : st.available.length + 1 < p.chunk_n :=
          Nat.lt_of_le_of_ne (Nat.succ_le_of_lt hlt) heq
        have hrec := ih
          ({ p with uploads := (ainsert c ({ st with available := hash k :: st.available })
              p.uploads) })
          ({ st with available := hash k :: st.available })
          (alookup_ainsert_self c _ p.uploads) (by simpa using hlt2)
        rw [faEvents_cons, Peer.run_cons_of_step_ok p _ hash target _ _ _ hstep]
        simpa [availAfter_cons, hinsert] using hrec

/-- Claim C3: over any sequence of valid `FragmentAvailable` receipts for an
uploading chunk `c` (each passing the identity and signature checks): a receipt
from a sender already counted is fully absorbed (no state change, no output);
the run never errors; the cumulative emissions are exactly one cancellation
trigger followed by one `PutOk(preimage)` when the distinct-sender count
reaches `n`, and nothing otherwise — so `PutOk` is never emitted twice, and
applying the theorem to each prefix of `keys` locates the emission exactly at
the event where the count first reaches `n`; the entry is removed exactly when
the count reaches `n`; and once the entry is gone every further receipt leaves
the peer unchanged and emits nothing. -/
theorem upload_concluded_exactly_once (hash target : Nat → Nat) (c : Nat) (keys : List Nat)
    (p : Peer) (st : UploadState) (hst : alookup c p.uploads = some st)
    (hlt : st.available.length < p.chunk_n) :
    (∀ k, hash k ∈ st.available →
      p.step hash target (.recvFragmentAvailable c (hash k) k true) = ⟨.ok, p, []⟩) ∧
    (p.run hash target (faEvents c keys hash)).out = .ok ∧
    (p.run hash target (faEvents c keys hash)).outs =
      (if p.chunk_n ≤ (availAfter hash st.available keys).length
        then [.cancel c, .putOk st.preimage] else []) ∧
    (alookup c (p.run hash target (faEvents c keys hash)).peer.uploads = none ↔
      p.chunk_n ≤ (availAfter hash st.available keys).length) ∧
    (∀ q : Peer, alookup c q.uploads = none →
      q.run hash target (faEvents c keys hash) = ⟨.ok, q, []⟩) :=
  ⟨fun k hk => fa_dup_step hash target p st c k hst hlt hk,
    (fa_run_spec hash target c keys p st hst hlt).1,
    (fa_run_spec hash target c keys p st hst hlt).2.1,
    (fa_run_spec hash target c keys p st hst hlt).2.2,
    fun q hq => run_fa_inert hash target c keys q hq⟩

/-- Claim C3 witness: on a live upload of chunk 0 with `n = 3` and an empty
receipt set, receipts from senders 21, 21 (a duplicate), 22 and 23 conclude the
upload with exactly one cancellation and one `PutOk`. -/
theorem upload_concluded_exactly_once_witness :
    alookup 0 peerC1.uploads =
      some { preimage := 0, encoder := true, pending := [], available := [] } ∧
    ([] : List Nat).length < peerC1.chunk_n ∧
    (peerC1.run id id (faEvents 0 [21, 21, 22, 23] id)).outs = [.cancel 0, .putOk 0] := by
  refine ⟨by decide, by decide, ?_⟩
  have h := (upload_concluded_exactly_once id id 0 [21, 21, 22, 23] peerC1
    { preimage := 0, encoder := true, pending := [], available := [] }
    (by decide) (by decide)).2.2.1
  rw [h, if_pos (by decide)]

/-- Claim C4 counterexample: a `Put` followed by a `Get` of the same preimage
both succeed, after which chunk 0 is in `uploads` and in `downloads` at once. -/
theorem tables_overlap_counterexample :
    (peer0.run id id [.put 0 [1, 2, 3, 4, 5, 6, 7, 8], .get 0]).out = .ok ∧
    (alookup 0 (peer0.run id id [.put 0 [1, 2, 3, 4, 5, 6, 7, 8], .get 0]).peer.uploads).isSome
      = true ∧
    (alookup 0 (peer0.run id id [.put 0 [1, 2, 3, 4, 5, 6, 7, 8], .get 0]).peer.downloads).isSome
      = true := by
  decide

/-- Chunk `c` occupies at most one of the three role tables of `p`: no two of
`uploads[c]`, `downloads[c]`, `persists[c]` are simultaneously defined. -/
def tablesDisjointAt (p : Peer) (c : Nat) : Prop :=
  ((alookup c p.uploads).isSome && (alookup c p.downloads).isSome
    || (alookup c p.uploads).isSome && (alookup c p.persists).isSome
    || (alookup c p.downloads).isSome && (alookup c p.persists).isSome) = false

/-- Every chunk occupies at most one role table. -/
def tablesDisjoint (p : Peer) : Prop :=
  ∀ c, tablesDisjointAt p c

/-- An event is role-safe in state `p` when it does not create a role entry
for a chunk already occupying a different table: a `Put` (resp. `Get`) targets
a chunk absent from the other two tables, and an `Invite` from another peer
concerns a chunk absent from `uploads` and `downloads`. All other events only
modify or remove entries and are unconditionally safe. -/
def roleSafe (target : Nat → Nat) (p : Peer) : Event → Bool
  | .put preimage _ =>
    (alookup (target preimage) p.downloads).isNone
      && (alookup (target preimage) p.persists).isNone
  | .get preimage =>
    (alookup (target preimage) p.uploads).isNone
      && (alookup (target preimage) p.persists).isNone
  | .recvInvite chunk peerId _ =>
    peerId == p.id
      || ((alookup chunk p.uploads).isNone && (alookup chunk p.downloads).isNone)
  | _ => true

/-- A trace is role-safe when each event is role-safe in the state where the
session handles it (events past a session-terminating outcome are moot). -/
def roleSafeTrace (hash target : Nat → Nat) (p : Peer) : List Event → Bool
  | [] => true
  | e :: es =>
    roleSafe target p e &&
      (match (p.step hash target e).out with
        | .ok => roleSafeTrace hash target (p.step hash target e).peer es
        | _ => true)

theorem roleSafeTrace_cons (hash target : Nat → Nat) (p : Peer) (e : Event) (es : List Event) :
    roleSafeTrace hash target p (e :: es) =
      (roleSafe target p e &&
        (match (p.step hash target e).out with
          | .ok => roleSafeTrace hash target (p.step hash target e).peer es
          | _ => true)) := rfl

/-- The final state of a run, one step at a time. -/
theorem Peer.run_peer_cons (p : Peer) (hash target : Nat → Nat) (e : Event) (es : List Event) :
    (p.run hash target (e :: es)).peer =
      (match (p.step hash target e).out with
        | .ok => ((p.step hash target e).peer.run hash target es).peer
        | _ => (p.step hash target e).peer) := by
  conv_lhs => rw [Peer.run]
  rcases hr : p.step hash target e with ⟨o, q, outs⟩
  cases o <;> simp

/-- Replacing the uploads table preserves pairwise disjointness provided every
chunk of the new table was already uploading or is free in the other tables. -/
theorem tablesDisjoint_set_uploads (p : Peer) (U : List (Nat × UploadState))
    (hd : tablesDisjoint p)
    (h : ∀ c, (alookup c U).isSome = true → (alookup c p.uploads).isSome = true ∨
      (alookup c p.downloads = none ∧ alookup c p.persists = none)) :
    tablesDisjoint { p with uploads := U } := by
  intro c
  have hc := hd c
  unfold tablesDisjointAt at hc ⊢
  simp only [Bool.or_eq_false_iff, Bool.and_eq_false_iff] at hc ⊢
  rcases hU : (alookup c U).isSome with _ | _
  · simp_all
  · rcases h c hU with hup | ⟨hdn, hps⟩
    · simp_all
    · simp [hdn, hps]

/-- Replacing the downloads table preserves pairwise disjointness provided
every chunk of the new table was already downloading or is free elsewhere. -/
theorem tablesDisjoint_set_downloads (p : Peer) (D : List (Nat × DownloadState))
    (hd : tablesDisjoint p)
    (h : ∀ c, (alookup c D).isSome = true → (alookup c p.downloads).isSome = true ∨
      (alookup c p.uploads = none ∧ alookup c p.persists = none)) :
    tablesDisjoint { p with downloads := D } := by
  intro c
  have hc := hd c
  unfold tablesDisjointAt at hc ⊢
  simp only [Bool.or_eq_false_iff, Bool.and_eq_false_iff] at hc ⊢
  rcases hD : (alookup c D).isSome with _ | _
  · simp_all
  · rcases h c hD with hdn | ⟨hup, hps⟩
    · simp_all
    · simp [hup, hps]

/-- Replacing the persists table preserves pairwise disjointness provided every
chunk of the new table was already persisting or is free elsewhere. -/
theorem tablesDisjoint_set_persists (p : Peer) (S : List (Nat × PersistState))
    (hd : tablesDisjoint p)
    (h : ∀ c, (alookup c S).isSome = true → (alookup c p.persists).isSome = true ∨
      (alookup c p.uploads = none ∧ alookup c p.downloads = none)) :
    tablesDisjoint { p with persists := S } := by
  intro c
  have hc := hd c
  unfold tablesDisjointAt at hc ⊢
  simp only [Bool.or_eq_false_iff, Bool.and_eq_false_iff] at hc ⊢
  rcases hS : (alookup c S).isSome with _ | _
  · simp_all
  · rcases h c hS with hps | ⟨hup, hdn⟩
    · simp_all
    · simp [hup, hdn]

/-- Chunks of `ainsert c v l` are `c` or chunks of `l`. -/
theorem isSome_alookup_ainsert {c' c : Nat} {v : α} {l : List (Nat × α)}
    (h : (alookup c' (ainsert c v l)).isSome = true) :
    c' = c ∨ (alookup c' l).isSome = true := by
  by_cases hc : c' = c
  · exact Or.inl hc
  · right
    rwa [alookup_ainsert_ne c c' v l hc] at h

/-- Chunks of `aerase c l` are chunks of `l`. -/
theorem isSome_alookup_aerase {c' c : Nat} {l : List (Nat × α)}
    (h : (alookup c' (aerase c l)).isSome = true) :
    (alookup c' l).isSome = true := by
  rw [alookup_aerase] at h
  by_cases hc : c' = c
  · simp [hc] at h
  · rwa [if_neg hc] at h

theorem tablesDisjoint_up_insert_existing (p : Peer) (c : Nat) (v : UploadState)
    (hd : tablesDisjoint p) (h : (alookup c p.uploads).isSome = true) :
    tablesDisjoint { p with uploads := ainsert c v p.uploads } :=
  tablesDisjoint_set_uploads p _ hd (fun c' h' =>
    Or.elim (isSome_alookup_ainsert h') (fun e => Or.inl (by rw [e]; exact h)) Or.inl)

theorem tablesDisjoint_up_insert_free (p : Peer) (c : Nat) (v : UploadState)
    (hd : tablesDisjoint p) (hdn : alookup c p.downloads = none)
    (hps : alookup c p.persists = none) :
    tablesDisjoint { p with uploads := ainsert c v p.uploads } :=
  tablesDisjoint_set_uploads p _ hd (fun c' h' =>
    Or.elim (isSome_alookup_ainsert h')
      (fun e => Or.inr (by rw [e]; exact ⟨hdn, hps⟩)) Or.inl)

theorem tablesDisjoint_up_erase (p : Peer) (c : Nat) (hd : tablesDisjoint p) :
    tablesDisjoint { p with uploads := aerase c p.uploads } :=
  tablesDisjoint_set_uploads p _ hd (fun _ h' => Or.inl (isSome_alookup_aerase h'))

theorem tablesDisjoint_dn_insert_existing (p : Peer) (c : Nat) (v : DownloadState)
    (hd : tablesDisjoint p) (h : (alookup c p.downloads).isSome = true) :
    tablesDisjoint { p with downloads := ainsert c v p.downloads } :=
  tablesDisjoint_set_downloads p _ hd (fun c' h' =>
    Or.elim (isSome_alookup_ainsert h') (fun e => Or.inl (by rw [e]; exact h)) Or.inl)

theorem tablesDisjoint_dn_insert_free (p : Peer) (c : Nat) (v : DownloadState)
    (hd : tablesDisjoint p) (hup : alookup c p.uploads = none)
    (hps : alookup c p.persists = none) :
    tablesDisjoint { p with downloads := ainsert c v p.downloads } :=
  tablesDisjoint_set_downloads p _ hd (fun c' h' =>
    Or.elim (isSome_alookup_ainsert h')
      (fun e => Or.inr (by rw [e]; exact ⟨hup, hps⟩)) Or.inl)

theorem tablesDisjoint_dn_erase (p : Peer) (c : Nat) (hd : tablesDisjoint p) :
    tablesDisjoint { p with downloads := aerase c p.downloads } :=
  tablesDisjoint_set_downloads p _ hd (fun _ h' => Or.inl (isSome_alookup_aerase h'))

theorem tablesDisjoint_ps_insert_existing (p : Peer) (c : Nat) (v : PersistState)
    (hd : tablesDisjoint p) (h : (alookup c p.persists).isSome = true) :
    tablesDisjoint { p with persists := ainsert c v p.persists } :=
  tablesDisjoint_set_persists p _ hd (fun c' h' =>
    Or.elim (isSome_alookup_ainsert h') (fun e => Or.inl (by rw [e]; exact h)) Or.inl)

theorem tablesDisjoint_ps_insert_free (p : Peer) (c : Nat) (v : PersistState)
    (hd : tablesDisjoint p) (hup : alookup c p.uploads = none)
    (hdn : alookup c p.downloads = none) :
    tablesDisjoint { p with persists := ainsert c v p.persists } :=
  tablesDisjoint_set_persists p _ hd (fun c' h' =>
    Or.elim (isSome_alookup_ainsert h')
      (fun e => Or.inr (by rw [e]; exact ⟨hup, hdn⟩)) Or.inl)

/-- Every single handled event preserves pairwise table disjointness, provided
the event is role-safe in the state where it is handled. This holds for every
outcome: also the state as mutated up to an error return stays disjoint. -/
theorem step_preserves_disjoint (hash target : Nat → Nat) (p : Peer) (e : Event)
    (hd : tablesDisjoint p) (hs : roleSafe target p e = true) :
    tablesDisjoint (p.step hash target e).peer := by
  cases e with
  | put preimage buf =>
    obtain ⟨hdn, hps⟩ : alookup (target preimage) p.downloads = none ∧
        alookup (target preimage) p.persists = none := by
      simpa [roleSafe, Option.isNone_iff_eq_none] using hs
    simp only [Peer.step, Peer.onPut]
    split
    · exact hd
    · split <;> exact tablesDisjoint_up_insert_free p (target preimage) _ hd hdn hps
  | newEncoder chunk =>
    simp only [Peer.step, Peer.onNewEncoder]
    rcases hup : alookup chunk p.uploads with _ | st
    · simp only [hup]; exact hd
    · simp only [hup]
      split
      · exact hd
      · exact tablesDisjoint_up_insert_existing p chunk _ hd (by simp [hup])
  | recvInvite chunk peerId randIndex =>
    simp only [Peer.step, Peer.onRecvInvite]
    by_cases hid : peerId = p.id
    · simp only [if_pos hid]; exact hd
    · simp only [if_neg hid]
      obtain ⟨hup, hdn⟩ : alookup chunk p.uploads = none ∧ alookup chunk p.downloads = none := by
        simp only [roleSafe, Bool.or_eq_true, Bool.and_eq_true, Option.isNone_iff_eq_none,
          beq_iff_eq] at hs
        exact hs.resolve_left hid
      rcases hps : alookup chunk p.persists with _ | st
      · simp only [hps]
        exact tablesDisjoint_ps_insert_free p chunk _ hd hup hdn
      · simp only [hps]
        exact hd
  | recvInviteOk chunk index peerId =>
    simp only [Peer.step, Peer.onRecvInviteOk]
    rcases hup : alookup chunk p.uploads with _ | st
    · simp only [hup]; exact hd
    · simp only [hup]
      split
      · exact hd
      · split
        · exact tablesDisjoint_up_insert_existing p chunk _ hd (by simp [hup])
        · exact hd
  | encode chunk index fragment =>
    simp only [Peer.step, Peer.onEncode]
    rcases hup : alookup chunk p.uploads with _ | st
    · simp only [hup]; exact hd
    · simp only [hup]
      rcases hpend : alookup index st.pending with _ | pid <;> simp only [hpend] <;> exact hd
  | recvOffer chunk index peerId =>
    simp only [Peer.step, Peer.onRecvOffer]
    rcases hdnl : alookup chunk p.downloads with _ | st
    · simp only [hdnl]
      rcases hps : alookup chunk p.persists with _ | pst
      · simp only [hps]; exact hd
      · simp only [hps]
        cases hstat : pst.status with
        | recovering recover =>
          simp only [hstat]
          split
          · split
            · exact hd
            · cases peerId with
              | none => exact hd
              | some pid =>
                exact tablesDisjoint_ps_insert_existing p chunk _ hd (by simp [hps])
          · exact hd
        | storing =>
          simp only [hstat]
          cases peerId with
          | some pid => split <;> first | exact hd | (split <;> exact hd)
          | none => exact hd
        | available =>
          simp only [hstat]
          cases peerId with
          | some pid => split <;> first | exact hd | (split <;> exact hd)
          | none => exact hd
    · simp only [hdnl]
      exact hd
  | downloadOk chunk index fragment =>
    simp only [Peer.step, Peer.onDownloadOk]
    rcases hdnl : alookup chunk p.downloads with _ | st
    · simp only [hdnl]
      rcases hps : alookup chunk p.persists with _ | pst
      · simp only [hps]; exact hd
      · simp only [hps]
        cases hstat : pst.status with
        | recovering recover =>
          simp only [hstat]
          split
          · exact tablesDisjoint_ps_insert_existing p chunk _ hd (by simp [hps])
          · split
            · exact hd
            · exact tablesDisjoint_ps_insert_existing p chunk _ hd (by simp [hps])
        | storing => simp only [hstat]; exact hd
        | available => simp only [hstat]; exact hd
    · simp only [hdnl]
      exact tablesDisjoint_dn_insert_existing p chunk _ hd (by simp [hdnl])
  | storeOk chunk =>
    simp only [Peer.step, Peer.onStoreOk]
    rcases hps : alookup chunk p.persists with _ | st
    · simp only [hps]; exact hd
    · simp only [hps]
      exact tablesDisjoint_ps_insert_existing p chunk _ hd (by simp [hps])
  | recvFragmentAvailable chunk peerId peerKey sigOk =>
    simp only [Peer.step, Peer.onRecvFragmentAvailable]
    rcases hup : alookup chunk p.uploads with _ | st
    · simp only [hup]; exact hd
    · simp only [hup]
      split
      · exact hd
      · split
        · exact tablesDisjoint_up_erase p chunk hd
        · exact tablesDisjoint_up_insert_existing p chunk _ hd (by simp [hup])
  | get preimage =>
    obtain ⟨hup, hps⟩ : alookup (target preimage) p.uploads = none ∧
        alookup (target preimage) p.persists = none := by
      simpa [roleSafe, Option.isNone_iff_eq_none] using hs
    simp only [Peer.step, Peer.onGet]
    split <;> exact tablesDisjoint_dn_insert_free p (target preimage) _ hd hup hps
  | recvPull chunk peerId =>
    simp only [Peer.step, Peer.onRecvPull]
    rcases hps : alookup chunk p.persists with _ | st
    · simp only [hps]; exact hd
    · simp only [hps]
      cases hstat : st.status with
      | recovering recover => simp only [hstat]; exact hd
      | storing => simp only [hstat]; exact hd
      | available => simp only [hstat]; exact hd
  | loadOk chunk index fragment =>
    simp only [Peer.step, Peer.onLoadOk]
    rcases hpp : alookup chunk p.pending_pulls with _ | pending <;> simp only [hpp] <;> exact hd
  | decode chunk =>
    simp only [Peer.step, Peer.onDecode]
    rcases hdnl : alookup chunk p.downloads with _ | st
    · simp only [hdnl]
      rcases hps : alookup chunk p.persists with _ | pst
      · simp only [hps]; exact hd
      · simp only [hps]
        cases hstat : pst.status with
        | recovering recover =>
          simp only [hstat]
          rcases hdec : recover.on_decode chunk (some pst.index) with _ | r
          · simp only [hdec]; exact hd
          · simp only [hdec]
            exact tablesDisjoint_ps_insert_existing p chunk _ hd (by simp [hps])
        | storing => simp only [hstat]; exact hd
        | available => simp only [hstat]; exact hd
    · simp only [hdnl]
      rcases hdec : st.recover.on_decode chunk none with _ | r
      · simp only [hdec]; exact hd
      · simp only [hdec]
        exact tablesDisjoint_dn_insert_existing p chunk _ hd (by simp [hdnl])
  | recover chunk buf =>
    simp only [Peer.step, Peer.onRecover]
    rcases hdnl : alookup chunk p.downloads with _ | st
    · simp only [hdnl]; exact hd
    · simp only [hdnl]
      exact tablesDisjoint_dn_erase p chunk hd
  | recoverEncode chunk fragment =>
    simp only [Peer.step, Peer.onRecoverEncode]
    rcases hps : alookup chunk p.persists with _ | st
    · simp only [hps]; exact hd
    · simp only [hps]
      cases hstat : st.status with
      | recovering recover =>
        simp only [hstat]
        exact tablesDisjoint_ps_insert_existing p chunk _ hd (by simp [hps])
      | storing => simp only [hstat]; exact hd
      | available => simp only [hstat]; exact hd

/-- Claim C4 (amended): after any sequence of handled events that is role-safe
— no `Put`, `Get` or foreign `Invite` is handled for a chunk currently
occupying a different role table — every chunk key appears in at most one of
`uploads`, `downloads`, `persists`. (Unconditionally the code does not enforce
this: see the counterexample where a `Put` followed by a `Get` of the same
preimage leaves the chunk in two tables.) -/
theorem tables_disjoint_of_role_safe (hash target : Nat → Nat) (p : Peer) (es : List Event)
    (hd : tablesDisjoint p) (hs : roleSafeTrace hash target p es = true) :
    tablesDisjoint (p.run hash target es).peer := by
  induction es generalizing p with
  | nil => exact hd
  | cons e es ih =>
    rw [roleSafeTrace_cons, Bool.and_eq_true] at hs
    obtain ⟨h1, h2⟩ := hs
    have hstep := step_preserves_disjoint hash target p e hd h1
    rw [Peer.run_peer_cons]
    cases hout : (p.step hash target e).out with
    | ok =>
      rw [hout] at h2
      exact ih _ hstep h2
    | error code => exact hstep
    | crash code => exact hstep

/-- Claim C4 (amended) witness: from the empty peer, a `Put` of chunk 0 and a
foreign `Invite` for chunk 1 form a role-safe trace, and afterwards every chunk
is in at most one table. -/
theorem tables_disjoint_of_role_safe_witness :
    tablesDisjoint peer0 ∧
    roleSafeTrace id id peer0 [.put 0 [1, 2, 3, 4, 5, 6, 7, 8], .recvInvite 1 77 5] = true ∧
    tablesDisjoint (peer0.run id id [.put 0 [1, 2, 3, 4, 5, 6, 7, 8], .recvInvite 1 77 5]).peer :=
  ⟨fun _ => rfl, by decide,
    tables_disjoint_of_role_safe id id peer0 [.put 0 [1, 2, 3, 4, 5, 6, 7, 8], .recvInvite 1 77 5]
      (fun _ => rfl) (by decide)⟩

/-- Recognizer for decode-job submissions among emitted side effects. -/
def Output.isSubmitDecode : Output → Bool
  | .submitDecode _ _ _ _ => true
  | _ => false

/-- Number of decode jobs submitted to the codec worker by a list of effects. -/
def decodeJobs (l : List Output) : Nat :=
  (l.filter Output.isSubmitDecode).length

/-- A recover state together with the number of decode jobs currently in
flight at the codec worker for its chunk. -/
structure RSys where
  rs : RecoverState
  inflight : Nat
deriving Repr, DecidableEq

/-- The two transitions a `RecoverState` undergoes during recovery: a fragment
arrival routed through `submit_decode` (incrementing the in-flight count by the
jobs submitted), and the worker returning the decoder through a `Decode` event
routed through `on_decode` (consuming one in-flight job and submitting whatever
`on_decode` resubmits). -/
inductive RTrans (chunk : Nat) (encodeIndex : Option Nat) : RSys → RSys → Prop
  | submit (s : RSys) (index : Nat) (fragment : Payload) :
      RTrans chunk encodeIndex s
        ⟨(s.rs.submit_decode chunk index fragment encodeIndex).1,
          s.inflight + decodeJobs (s.rs.submit_decode chunk index fragment encodeIndex).2⟩
  | ret (s : RSys) (rs' : RecoverState) (outs : List Output) (h : 1 ≤ s.inflight)
      (hd : s.rs.on_decode chunk encodeIndex = some (rs', outs)) :
      RTrans chunk encodeIndex s ⟨rs', s.inflight - 1 + decodeJobs outs⟩

/-- States reachable from a fresh `RecoverState` with no job in flight. -/
inductive RReach (chunk : Nat) (encodeIndex : Option Nat) : RSys → Prop
  | init : RReach chunk encodeIndex ⟨RecoverState.fresh, 0⟩
  | next {s t : RSys} : RReach chunk encodeIndex s → RTrans chunk encodeIndex s t →
      RReach chunk encodeIndex t

/-- The single-flight invariant: at most one decode job is in flight, and the
decoder sits in its slot exactly when no job is in flight. -/
def RInv (s : RSys) : Prop :=
  s.inflight ≤ 1 ∧ (s.rs.decoder = true ↔ s.inflight = 0)

/-- Exhaustive description of `on_decode` on an empty decoder slot: with no
pending fragment it just reinstalls the decoder; otherwise it removes the head
pending fragment and resubmits it (taking the decoder straight out again). -/
theorem on_decode_cases (rs : RecoverState) (chunk : Nat) (encodeIndex : Option Nat)
    (h : rs.decoder = false) :
    (rs.pending.head? = none ∧
      rs.on_decode chunk encodeIndex = some ({ rs with decoder := true }, [])) ∨
    (∃ index fragment, rs.pending.head? = some (index, fragment) ∧
      rs.on_decode chunk encodeIndex =
        some ({ rs with pending := aerase index rs.pending },
          [.submitDecode chunk index fragment encodeIndex])) := by
  unfold RecoverState.on_decode
  rw [h]
  rcases hh : rs.pending.head? with _ | ⟨index, fragment⟩
  · left
    refine ⟨rfl, ?_⟩
    simp [hh]
  · right
    refine ⟨index, fragment, rfl, ?_⟩
    simp [hh, RecoverState.submit_decode, h]

theorem rinv_of_reach (chunk : Nat) (encodeIndex : Option Nat) (s : RSys)
    (h : RReach chunk encodeIndex s) : RInv s := by
  induction h with
  | init => exact ⟨Nat.zero_le 1, by simp [RecoverState.fresh]⟩
  | @next s t hr ht ih =>
    obtain ⟨hle, hiff⟩ := ih
    cases ht with
    | submit index fragment =>
      by_cases hdec : s.rs.decoder = true
      · have h0 : s.inflight = 0 := hiff.mp hdec
        constructor <;>
          simp [RecoverState.submit_decode, hdec, decodeJobs, Output.isSubmitDecode, h0]
      · have hdec' : s.rs.decoder = false := by simpa using hdec
        have h1 : s.inflight = 1 := by
          rcases Nat.lt_or_ge s.inflight 1 with h | h
          · exact absurd (hiff.mpr (Nat.lt_one_iff.mp h)) hdec
          · exact Nat.le_antisymm hle h
        constructor <;> simp [RecoverState.submit_decode, hdec', decodeJobs, h1]
    | ret rs' outs h1 hd =>
      have hdec : s.rs.decoder = false := by
        rcases hb : s.rs.decoder with _ | _
        · rfl
        · rw [hiff.mp hb] at h1; exact absurd h1 (by decide)
      have hinf : s.inflight = 1 := Nat.le_antisymm hle h1
      rcases on_decode_cases s.rs chunk encodeIndex hdec with ⟨hh, he⟩ |
        ⟨index, fragment, hh, he⟩
      · rw [hd] at he
        simp only [Option.some.injEq, Prod.mk.injEq] at he
        obtain ⟨h2, h3⟩ := he
        subst h2
        subst h3
        constructor <;> simp [decodeJobs, hinf]
      · rw [hd] at he
        simp only [Option.some.injEq, Prod.mk.injEq] at he
        obtain ⟨h2, h3⟩ := he
        subst h2
        subst h3
        constructor <;> simp [decodeJobs, Output.isSubmitDecode, hinf, hdec]

/-- What `on_decode` does whenever the decoder slot is empty: it succeeds (the
slot assert cannot fire), reinstalls the decoder, and resubmits at most one
pending fragment — the decoder is taken again exactly when one is resubmitted. -/
theorem on_decode_spec (rs : RecoverState) (chunk : Nat) (encodeIndex : Option Nat)
    (h : rs.decoder = false) :
    ∃ r, rs.on_decode chunk encodeIndex = some r ∧ decodeJobs r.2 ≤ 1 ∧
      (r.1.decoder = true ↔ decodeJobs r.2 = 0) := by
  rcases on_decode_cases rs chunk encodeIndex h with ⟨hh, he⟩ | ⟨index, fragment, hh, he⟩
  · exact ⟨_, he, by simp [decodeJobs], by simp [decodeJobs]⟩
  · refine ⟨_, he, ?_, ?_⟩ <;> simp [decodeJobs, Output.isSubmitDecode, h]

/-- Claim C7: per chunk at most one decode job is in flight. From a fresh
recover state: (1) every reachable state satisfies the single-flight invariant
(`inflight ≤ 1`, and the decoder is in its slot exactly when nothing is in
flight); (2) `submit_decode` moves the decoder out and submits exactly one job
when the decoder is present; (3) otherwise it only queues the fragment in
`pending` and submits nothing; (4) whenever a decode job is in flight in a
reachable state, the returning `Decode` finds the slot empty (`on_decode`
cannot hit its assert), reinstalls the decoder, and resubmits at most one
pending fragment. -/
theorem decode_single_flight (chunk : Nat) (encodeIndex : Option Nat) :
    (∀ s, RReach chunk encodeIndex s → RInv s) ∧
    (∀ (rs : RecoverState) (index : Nat) (fragment : Payload), rs.decoder = true →
      rs.submit_decode chunk index fragment encodeIndex =
        ({ rs with decoder := false }, [.submitDecode chunk index fragment encodeIndex])) ∧
    (∀ (rs : RecoverState) (index : Nat) (fragment : Payload), rs.decoder = false →
      rs.submit_decode chunk index fragment encodeIndex =
        ({ rs with pending := ainsert index fragment rs.pending }, [])) ∧
    (∀ s, RReach chunk encodeIndex s → 1 ≤ s.inflight →
      ∃ r, s.rs.on_decode chunk encodeIndex = some r ∧ decodeJobs r.2 ≤ 1 ∧
        (r.1.decoder = true ↔ decodeJobs r.2 = 0)) := by
  refine ⟨fun s hs => rinv_of_reach chunk encodeIndex s hs,
    fun rs index fragment h => by simp [RecoverState.submit_decode, h],
    fun rs index fragment h => by simp [RecoverState.submit_decode, h],
    fun s hs h1 => ?_⟩
  have hdec : s.rs.decoder = false := by
    have hiff := (rinv_of_reach chunk encodeIndex s hs).2
    rcases hb : s.rs.decoder with _ | _
    · rfl
    · rw [hiff.mp hb] at h1; exact absurd h1 (by decide)
  exact on_decode_spec s.rs chunk encodeIndex hdec

/-- Claim C7 witness: the fresh state is reachable and satisfies the
invariant; a present decoder is moved out with exactly one submission; an
absent decoder queues the fragment; and after one submission from the fresh
state the in-flight decode returns successfully with nothing to resubmit. -/
theorem decode_single_flight_witness :
    RInv ⟨RecoverState.fresh, 0⟩ ∧
    RecoverState.fresh.submit_decode 0 7 [1] none =
      (⟨false, [], []⟩, [.submitDecode 0 7 [1] none]) ∧
    (⟨false, [], [3]⟩ : RecoverState).submit_decode 0 7 [1] none =
      (⟨false, [(7, [1])], [3]⟩, []) ∧
    (∃ r, (⟨false, [], []⟩ : RecoverState).on_decode 0 none = some r ∧
      decodeJobs r.2 ≤ 1 ∧ (r.1.decoder = true ↔ decodeJobs r.2 = 0)) := by
  refine ⟨(decode_single_flight 0 none).1 _ RReach.init,
    (decode_single_flight 0 none).2.1 _ 7 [1] rfl,
    (decode_single_flight 0 none).2.2.1 _ 7 [1] rfl,
    (decode_single_flight 0 none).2.2.2 ⟨⟨false, [], []⟩, 1⟩
      (RReach.next RReach.init (RTrans.submit ⟨RecoverState.fresh, 0⟩ 7 [1])) (by decide)⟩

/-- Model of `net::session::Connection` as observable by the idle-reap sweep:
`usingBit` models the `using` flag (`using` is reserved in Lean), and
`sender_closed` models `sender.is_closed()` on the writer channel. -/
structure Connection where
  sender_closed : Bool
  usingBit : Bool
deriving Repr, DecidableEq

/-- Sweep `Dispatch::on_timer` (session.rs:233): retain a connection when its
`using` bit was set and its writer channel is open, clearing the bit of every
retained connection (`replace(&mut connection.using, false) && !is_closed()`). -/
def dispatchSweep : List (Nat × Connection) → List (Nat × Connection)
  | [] => []
  | (a, c) :: rest =>
    if c.usingBit && !c.sender_closed then
      (a, { c with usingBit := false }) :: dispatchSweep rest
    else dispatchSweep rest

theorem dispatchSweep_lookup_none (a : Nat) (conns : List (Nat × Connection))
    (h : a ∉ conns.map Prod.fst) : alookup a (dispatchSweep conns) = none := by
  induction conns with
  | nil => rfl
  | cons hd rest ih =>
    obtain ⟨a₁, c₁⟩ := hd
    simp only [List.map, List.mem_cons, not_or] at h
    obtain ⟨hne, hrest⟩ := h
    have hne' : ¬ a₁ = a := fun hh => hne hh.symm
    unfold dispatchSweep
    split
    · simp [alookup, hne', ih hrest]
    · exact ih hrest

theorem dispatchSweep_usingBit_cleared (conns : List (Nat × Connection)) (a : Nat)
    (c : Connection) (h : alookup a (dispatchSweep conns) = some c) : c.usingBit = false := by
  induction conns with
  | nil => simp [dispatchSweep, alookup] at h
  | cons hd rest ih =>
    obtain ⟨a₁, c₁⟩ := hd
    unfold dispatchSweep at h
    split at h
    · rw [alookup] at h
      by_cases ha : a₁ = a
      · rw [if_pos ha] at h
        obtain rfl : ({ c₁ with usingBit := false } : Connection) = c := by
          simpa using h
        rfl
      · rw [if_neg ha] at h
        exact ih h
    · exact ih h

/-- Claim C8: at a sweep of the connection cache, the connection under address
`a` survives if and only if its `using` bit was set at the start of the
interval and its writer channel is open (equivalently: it is dropped iff the
bit was unset or the channel closed), the retained connection is the old one
with its `using` bit cleared, and every retained connection has a cleared
`using` bit. -/
theorem dispatch_sweep_spec (conns : List (Nat × Connection))
    (hkeys : (conns.map Prod.fst).Nodup) (a : Nat) (c : Connection)
    (h : alookup a conns = some c) :
    alookup a (dispatchSweep conns) =
      (if c.usingBit = true ∧ c.sender_closed = false
        then some { c with usingBit := false } else none) ∧
    (∀ a' c', alookup a' (dispatchSweep conns) = some c' → c'.usingBit = false) := by
  refine ⟨?_, fun a' c' h' => dispatchSweep_usingBit_cleared conns a' c' h'⟩
  induction conns with
  | nil => simp [alookup] at h
  | cons hd rest ih =>
    obtain ⟨a₁, c₁⟩ := hd
    simp only [List.map, List.nodup_cons] at hkeys
    obtain ⟨hnotin, hrest⟩ := hkeys
    rw [alookup] at h
    by_cases ha : a₁ = a
    · rw [if_pos ha] at h
      obtain rfl : c₁ = c := by simpa using h
      subst ha
      unfold dispatchSweep
      by_cases hkeep : (c₁.usingBit && !c₁.sender_closed) = true
      · rw [if_pos hkeep, alookup, if_pos rfl]
        simp only [Bool.and_eq_true, Bool.not_eq_true'] at hkeep
        rw [if_pos hkeep]
      · rw [if_neg hkeep, dispatchSweep_lookup_none a₁ rest hnotin]
        simp only [Bool.and_eq_true, Bool.not_eq_true'] at hkeep
        rw [if_neg hkeep]
    · rw [if_neg ha] at h
      unfold dispatchSweep
      split
      · rw [alookup, if_neg ha]
        exact ih hrest h
      · exact ih hrest h

/-- Claim C8 witness: a cache with a used-open, an idle, and a used-closed
connection; exactly the first survives, with its bit cleared. -/
theorem dispatch_sweep_spec_witness :
    alookup 1 [(1, (⟨false, true⟩ : Connection)), (2, ⟨false, false⟩), (3, ⟨true, true⟩)] =
      some ⟨false, true⟩ ∧
    alookup 1 (dispatchSweep
        [(1, (⟨false, true⟩ : Connection)), (2, ⟨false, false⟩), (3, ⟨true, true⟩)]) =
      (if (⟨false, true⟩ : Connection).usingBit = true ∧
          (⟨false, true⟩ : Connection).sender_closed = false
        then some ⟨false, false⟩ else none) :=
  ⟨by decide,
    (dispatch_sweep_spec [(1, ⟨false, true⟩), (2, ⟨false, false⟩), (3, ⟨true, true⟩)]
      (by decide) 1 ⟨false, true⟩ (by decide)).1⟩

/-- Rust `SocketAddr` as seen by serde's binary serialization (for `V6` only
the ip octets and the port cross the boundary). -/
inductive RSocketAddr where
  | v4 (a b c d : Nat) (port : Nat)
  | v6 (octets : List Nat) (port : Nat)
deriving Repr, DecidableEq

/-- Well-formedness guaranteed by the Rust types: octet values are bytes,
ports are `u16`, a `V6` ip has 16 octets. -/
def wfAddr : RSocketAddr → Bool
  | .v4 a b c d port =>
    decide (a < 256) && decide (b < 256) && decide (c < 256) && decide (d < 256)
      && decide (port < 65536)
  | .v6 octets port =>
    decide (octets.length = 16) && octets.all (fun x => decide (x < 256))
      && decide (port < 65536)

/-- Well-formedness of the optional preamble address. -/
def wfPreamble : Option RSocketAddr → Bool
  | none => true
  | some a => wfAddr a

/-- bincode `DefaultOptions` varint encoding of a `u16`: a single byte below
251, otherwise the marker byte 251 followed by the little-endian `u16`. -/
def serU16 (v : Nat) : List Nat :=
  if v < 251 then [v] else [251, v % 256, v / 256]

/-- bincode `DefaultOptions` varint decoding of a `u16`. -/
def deU16 : List Nat → Option (Nat × List Nat)
  | [] => none
  | b :: rest =>
    if b < 251 then some (b, rest)
    else if b = 251 then
      match rest with
      | lo :: hi :: r => some (lo + 256 * hi, r)
      | _ => none
    else none

/-- serde + bincode serialization of a `SocketAddr`: the enum variant index as
a varint `u32` (`0` = V4, `1` = V6), the ip octets as raw bytes, then the
varint port. -/
def serAddr : RSocketAddr → List Nat
  | .v4 a b c d port => 0 :: a :: b :: c :: d :: serU16 port
  | .v6 octets port => 1 :: octets ++ serU16 port

/-- serde + bincode deserialization of a `SocketAddr`. -/
def deAddr : List Nat → Option (RSocketAddr × List Nat)
  | [] => none
  | t :: rest =>
    if t = 0 then
      match rest with
      | a :: b :: c :: d :: r =>
        match deU16 r with
        | some (port, r') => some (.v4 a b c d port, r')
        | none => none
      | _ => none
    else if t = 1 then
      if rest.length < 16 then none
      else
        match deU16 (rest.drop 16) with
        | some (port, r') => some (.v6 (rest.take 16) port, r')
        | none => none
    else none

/-- serde + bincode serialization of the `Option<SocketAddr>` preamble: the
option tag byte, then the address when present. -/
def serPreamble : Option RSocketAddr → List Nat
  | none => [0]
  | some a => 1 :: serAddr a

/-- Deserialization of the preamble as done by `tcp_accept_session`
(session.rs:370) with `allow_trailing_bytes`: bytes past the encoded value are
ignored. -/
def dePreamble : List Nat → Option (Option RSocketAddr)
  | [] => none
  | t :: rest =>
    if t = 0 then some none
    else if t = 1 then (deAddr rest).map (fun r => some r.1)
    else none

/-- Constructor `Tcp::new` (session.rs:245): serialize the optional listen address with
bincode, assert the encoding is shorter than 16 bytes (`none` models that
panic), and zero-pad the buffer to exactly 16 bytes. -/
def tcpNew (addr : Option RSocketAddr) : Option (List Nat) :=
  if (serPreamble addr).length < 16 then
    some (serPreamble addr ++ List.replicate (16 - (serPreamble addr).length) 0)
  else none

theorem deU16_serU16 (port : Nat) (r : List Nat) :
    deU16 (serU16 port ++ r) = some (port, r) := by
  unfold serU16
  by_cases h : port < 251
  · simp [h, deU16]
  · simp only [h, if_false]
    simp [deU16, Nat.mod_add_div port 256]

/-- Claim C9: for every well-formed `Option<SocketAddr>` whose bincode
encoding is shorter than 16 bytes, `Tcp::new` succeeds and produces exactly 16
bytes (the encoding zero-padded), and the accepting side's trailing-byte
tolerant parse of those 16 bytes yields the same value back. -/
theorem tcp_preamble_roundtrip (addr : Option RSocketAddr)
    (hwf : wfPreamble addr = true) (hlen : (serPreamble addr).length < 16) :
    ∃ bytes, tcpNew addr = some bytes ∧ bytes.length = 16 ∧ dePreamble bytes = some addr := by
  refine ⟨serPreamble addr ++ List.replicate (16 - (serPreamble addr).length) 0, ?_, ?_, ?_⟩
  · unfold tcpNew
    rw [if_pos hlen]
  · rw [List.length_append, List.length_replicate]
    omega
  · cases addr with
    | none => simp [serPreamble, dePreamble]
    | some a =>
      cases a with
      | v4 a b c d port =>
        simp [serPreamble, serAddr, dePreamble, deAddr, deU16_serU16]
      | v6 octets port =>
        exfalso
        have hlen16 : octets.length = 16 := by
          simp only [wfPreamble, wfAddr, Bool.and_eq_true, decide_eq_true_eq] at hwf
          exact hwf.1.1
        simp [serPreamble, serAddr, hlen16] at hlen
        omega

/-- Claim C9 witness: the address `127.0.0.1:8080` is well-formed, encodes in
9 bytes, and round-trips through the 16-byte preamble. -/
theorem tcp_preamble_roundtrip_witness :
    wfPreamble (some (.v4 127 0 0 1 8080)) = true ∧
    (serPreamble (some (.v4 127 0 0 1 8080))).length < 16 ∧
    (∃ bytes, tcpNew (some (.v4 127 0 0 1 8080)) = some bytes ∧ bytes.length = 16 ∧
      dePreamble bytes = some (some (.v4 127 0 0 1 8080))) :=
  ⟨by decide, by decide, tcp_preamble_roundtrip (some (.v4 127 0 0 1 8080))
    (by decide) (by decide)⟩

end Larlis
